import Mathlib

set_option maxRecDepth 8000

/-!
Shallow embedding of the extraction core of src/app.py (work-hours matching
tool).  Texts are lists of characters, Python floats are modelled by rationals,
and the regex rules of the source are embedded as data for a small backtracking
matcher that follows the preference order of Python's engine on the pattern
fragment the source uses (character classes, sequencing, greedy and lazy
repetition, option, alternation, capture groups; no empty-matching toplevel
pattern occurs in the source).  Digit classes and digit tests are modelled
over the ASCII digits, and the whitespace class over the common whitespace
characters, rather than the full Unicode categories Python uses.
-/

/-- Whitespace test modelling the regex class backslash-s and Python str.strip
    (ASCII whitespace plus NEL, NBSP and the ideographic space). -/
def isSpaceC (c : Char) : Bool :=
  c == ' ' || c == '\t' || c == '\n' || c == '\r' || c == '\x0b' || c == '\x0c' ||
  c == '\x85' || c == '\xa0' || c == '　'

/-- Regex fragment sufficient for every pattern compiled by src/app.py. -/
inductive RE where
  | eps : RE
  | cls (p : Char → Bool) : RE
  | seq (a b : RE) : RE
  | alt (a b : RE) : RE
  | starG (p : Char → Bool) : RE
  | starL (p : Char → Bool) : RE
  | optG (r : RE) : RE
  | group (r : RE) : RE

/-- All ways a regex can match a prefix of the input, in backtracking
    preference order (the order Python's engine explores): each outcome is the
    remaining suffix together with the captured substrings completed so far. -/
def runRE : RE → List Char → List (List Char × List (List Char))
  | RE.eps, s => [(s, [])]
  | RE.cls _, [] => []
  | RE.cls p, c :: rest => if p c then [(rest, [])] else []
  | RE.seq a b, s =>
      (runRE a s).flatMap (fun pr =>
        (runRE b pr.1).map (fun qr => (qr.1, pr.2 ++ qr.2)))
  | RE.alt a b, s => runRE a s ++ runRE b s
  | RE.starG p, s =>
      (List.range ((s.takeWhile p).length + 1)).map
        (fun i => (s.drop ((s.takeWhile p).length - i), []))
  | RE.starL p, s =>
      (List.range ((s.takeWhile p).length + 1)).map (fun i => (s.drop i, []))
  | RE.optG r, s => runRE r s ++ [(s, [])]
  | RE.group r, s =>
      (runRE r s).map (fun pr => (pr.1, pr.2 ++ [s.take (s.length - pr.1.length)]))

/-- Leftmost match of a regex (Python re.search): captures of the first match
    together with the suffix following the matched part. -/
def searchAux (r : RE) : List Char → Option (List (List Char) × List Char)
  | [] =>
    match (runRE r []).head? with
    | some pr => some (pr.2, pr.1)
    | none => none
  | c :: t =>
    match (runRE r (c :: t)).head? with
    | some pr => some (pr.2, pr.1)
    | none => searchAux r t

/-- Fuelled scan collecting non-overlapping matches left to right.  Every
    pattern of the source consumes at least one character per match, so fuel
    equal to the input length plus one never runs out. -/
def findallFuel (r : RE) : Nat → List Char → List (List (List Char))
  | 0, _ => []
  | fuel + 1, s =>
    match searchAux r s with
    | none => []
    | some (caps, rest) => caps :: findallFuel r fuel rest

/-- Python re.findall: the capture lists of all non-overlapping matches. -/
def findallAux (r : RE) (s : List Char) : List (List (List Char)) :=
  findallFuel r (s.length + 1) s

/-- Number of capture groups of an embedded pattern; Python findall returns
    plain strings for one group and tuples for two. -/
def numGroups : RE → Nat
  | RE.eps => 0
  | RE.cls _ => 0
  | RE.seq a b => numGroups a + numGroups b
  | RE.alt a b => numGroups a + numGroups b
  | RE.starG _ => 0
  | RE.starL _ => 0
  | RE.optG r => numGroups r
  | RE.group r => numGroups r + 1

/-- Sequence a list of regex pieces. -/
def rseq (l : List RE) : RE := l.foldr RE.seq RE.eps

/-- Case-sensitive literal. -/
def rlit (t : String) : RE :=
  rseq (t.toList.map (fun c => RE.cls (fun d => d == c)))

/-- Case-insensitive literal (the hour and table patterns are compiled with
    re.IGNORECASE; only ASCII letters are case-relevant in the source). -/
def rlitCI (t : String) : RE :=
  rseq (t.toList.map (fun c => RE.cls (fun d => d.toLower == c.toLower)))

/-- Greedy plus of a class. -/
def rplusG (p : Char → Bool) : RE := RE.seq (RE.cls p) (RE.starG p)

/-- Lazy plus of a class. -/
def rplusL (p : Char → Bool) : RE := RE.seq (RE.cls p) (RE.starL p)

/-- Class [:\s：]. -/
def colonSpaceJ (c : Char) : Bool := c == ':' || isSpaceC c || c == '：'

/-- Class [:\s] (also [:\s\n\r], since \n and \r are whitespace). -/
def colonSpaceA (c : Char) : Bool := c == ':' || isSpaceC c

/-- Class [時間hH] (identical to [hH時間]). -/
def hourUnit (c : Char) : Bool := c == '時' || c == '間' || c == 'h' || c == 'H'

/-- Pattern \d+\.?\d* . -/
def decNum : RE :=
  rseq [rplusG Char.isDigit, RE.optG (RE.cls (fun c => c == '.')), RE.starG Char.isDigit]

/-- Pattern \d+\.?\d+ . -/
def decNum2 : RE :=
  rseq [rplusG Char.isDigit, RE.optG (RE.cls (fun c => c == '.')), rplusG Char.isDigit]

/-- Pattern \d+ . -/
def intNum : RE := rplusG Char.isDigit

/-- Priority tiers of extract_work_hours_smart: 最重要 = critical,
    高優先 = high, 中優先 = medium, 低優先 = low, 最低優先 = lowest. -/
inductive Tier where
  | critical | high | medium | low | lowest
deriving DecidableEq

/-- Priority pattern table of extract_work_hours_smart (src/app.py lines
    195-221), in source order. -/
def priority_patterns : List (Tier × RE) := [
  (Tier.critical, rseq [rlit "勤務時間", RE.starG colonSpaceJ, RE.group decNum, RE.starG hourUnit]),
  (Tier.critical, rseq [rlit "総勤務時間", RE.starG colonSpaceJ, RE.group decNum, RE.starG hourUnit]),
  (Tier.critical, rseq [rlitCI "Total Hours", RE.starG colonSpaceA, RE.group decNum, RE.starG hourUnit]),
  (Tier.critical, rseq [rlitCI "Work Hours", RE.starG colonSpaceA, RE.group decNum, RE.starG hourUnit]),
  (Tier.critical, rseq [rlitCI "Working Hours", RE.starG colonSpaceA, RE.group decNum, RE.starG hourUnit]),
  (Tier.high, rseq [rlit "合計", RE.starG colonSpaceJ, RE.group decNum, RE.starG hourUnit]),
  (Tier.high, rseq [rlit "総時間", RE.starG colonSpaceJ, RE.group decNum, RE.starG hourUnit]),
  (Tier.high, rseq [rlitCI "TOTAL", RE.starG colonSpaceA, RE.group decNum, RE.starG hourUnit]),
  (Tier.high, rseq [rlitCI "Total", RE.starG colonSpaceA, RE.group decNum, RE.starG hourUnit]),
  (Tier.medium, rseq [rlit "実働", RE.starG colonSpaceJ, RE.group decNum, RE.starG hourUnit]),
  (Tier.medium, rseq [rlit "実際", RE.starG colonSpaceJ, RE.group decNum, RE.starG hourUnit]),
  (Tier.medium, rseq [rlitCI "Net Hours", RE.starG colonSpaceA, RE.group decNum, RE.starG hourUnit]),
  (Tier.medium, rseq [rlitCI "Actual", RE.starG colonSpaceA, RE.group decNum, RE.starG hourUnit]),
  (Tier.low, rseq [RE.group decNum2, RE.starG isSpaceC, RE.cls hourUnit]),
  (Tier.low, rseq [RE.group decNum2, RE.starG isSpaceC, rlitCI "hour",
                   RE.optG (RE.cls (fun c => c.toLower == 's'))]),
  (Tier.lowest, rseq [RE.group intNum, RE.cls (fun c => c == '時' || c == ':'),
                      RE.group intNum, RE.optG (RE.cls (fun c => c == '分'))])
]

/-- Numeric value of a digit string. -/
def natOfDigits (l : List Char) : Nat :=
  l.foldl (fun a c => 10 * a + (c.toNat - '0'.toNat)) 0

/-- Python float() on the digit strings the captures can produce: digits with
    an optional dot and further digits (float of "176." is 176.0); none models
    ValueError. -/
def parseDec (s : List Char) : Option ℚ :=
  let ip := s.takeWhile Char.isDigit
  match s.dropWhile Char.isDigit with
  | [] => if ip = [] then none else some (natOfDigits ip)
  | '.' :: frac =>
    if ip = [] then none
    else if frac.all Char.isDigit then
      some (mkRat (natOfDigits ip * 10 ^ frac.length + natOfDigits frac) (10 ^ frac.length))
    else none
  | _ => none

/-- Python round(x, 2) on the rationals, computed on numerator and
    denominator (round2_eq below identifies it with rounding q * 100 to the
    nearest integer, halves up, then dividing by 100). -/
def round2 (q : ℚ) : ℚ :=
  mkRat ((200 * q.num + (q.den : Int)) / ((2 * q.den : Nat) : Int)) 100

/-- Line 234: the hour:minute conversion hours + minutes/60, computed on
    numerators and denominators (pairHours_eq below identifies it with
    x + y / 60). -/
def pairHours (x y : ℚ) : ℚ :=
  mkRat (x.num * (60 * (y.den : Int)) + y.num * (x.den : Int)) (x.den * (60 * y.den))

/-- Lines 235-242: range filter for an hour:minute pair candidate. -/
def processPair (hours : ℚ) : Option ℚ :=
  if 1 ≤ hours ∧ hours ≤ 24 then some (round2 hours) else none

/-- Lines 244-268: tier-dependent range filter for a bare-number candidate
    (the branch chain appends nothing for a bare number in the lowest tier). -/
def processSingle (t : Tier) (hours : ℚ) : Option ℚ :=
  if t = Tier.critical then
    (if 50 ≤ hours ∧ hours ≤ 500 then some (round2 hours) else none)
  else if t = Tier.high then
    (if 50 ≤ hours ∧ hours ≤ 500 then some (round2 hours) else none)
  else if t = Tier.medium ∨ t = Tier.low then
    (if 1 ≤ hours ∧ hours ≤ 500 then some (round2 hours) else none)
  else none

/-- Lines 231-270: one findall capture list to an accepted value; a pair of
    captures is the hour:minute case, a single capture the bare-number case,
    and a failed parse is dropped silently. -/
def processMatch (t : Tier) : List (List Char) → Option ℚ
  | [a, b] =>
    match parseDec a, parseDec b with
    | some x, some y => processPair (pairHours x y)
    | _, _ => none
  | [a] =>
    match parseDec a with
    | some hours => processSingle t hours
    | none => none
  | _ => none

/-- Accepted candidate values of one tier in pattern order: the contents of
    all_matches[priority] after the matching loop. -/
def tierValues (t : Tier) (s : List Char) : List ℚ :=
  (priority_patterns.filter (fun p => decide (p.1 = t))).flatMap
    (fun p => (findallAux p.2 s).filterMap (processMatch t))

/-- Within-tier deduplication keeping the first occurrence of each value
    (lines 280-286), generalised over the seen set. -/
def dedupFirstAux : List ℚ → List ℚ → List ℚ
  | [], _ => []
  | x :: rest, seen =>
    if x ∈ seen then dedupFirstAux rest seen else x :: dedupFirstAux rest (x :: seen)

/-- Deduplication keeping first occurrences. -/
def dedupFirst (l : List ℚ) : List ℚ := dedupFirstAux l []

/-- Tier processing order of the selection loop (line 278). -/
def tierOrder : List Tier := [Tier.critical, Tier.high, Tier.medium, Tier.low, Tier.lowest]

/-- Lines 276-294: tier accumulation with the Critical/High early stop. -/
def selGo (s : List Char) : List Tier → List ℚ
  | [] => []
  | t :: ts =>
    if dedupFirst (tierValues t s) = [] then selGo s ts
    else if t = Tier.critical ∨ t = Tier.high then dedupFirst (tierValues t s)
    else dedupFirst (tierValues t s) ++ selGo s ts

/-- The selected_values list after the tier loop. -/
def selectedValues (s : List Char) : List ℚ := selGo s tierOrder

/-- Python sorted(list(set(xs))): the distinct values in ascending order. -/
def sortedDedup (l : List ℚ) : List ℚ :=
  (dedupFirst l).insertionSort (· ≤ ·)

/-- Lines 189-309 of src/app.py: the single-subject hour selector (the debug
    trace, an observability sink, is omitted). -/
def extract_work_hours_smart (s : List Char) : List ℚ :=
  if 3 < (sortedDedup (selectedValues s)).length then
    (sortedDedup (selectedValues s)).drop ((sortedDedup (selectedValues s)).length - 2)
  else sortedDedup (selectedValues s)

/-- Complement of whitespace. -/
def notSpace (c : Char) : Bool := !isSpaceC c

/-- Class [A-Za-z]. -/
def isAlphaAZ (c : Char) : Bool := ('A' ≤ c && c ≤ 'Z') || ('a' ≤ c && c ≤ 'z')

/-- Pattern [A-Za-z]+(?:\s+[A-Za-z]+)? used by the English name rules. -/
def engName : RE :=
  rseq [rplusG isAlphaAZ, RE.optG (rseq [rplusG isSpaceC, rplusG isAlphaAZ])]

/-- Name rule table of extract_employee_name (lines 313-329), in source
    order; these searches are compiled without IGNORECASE. -/
def name_patterns : List RE := [
  rseq [rlit "氏名", RE.starG colonSpaceJ, RE.group (rplusG notSpace)],
  rseq [rlit "名前", RE.starG colonSpaceJ, RE.group (rplusG notSpace)],
  rseq [rlit "社員名", RE.starG colonSpaceJ, RE.group (rplusG notSpace)],
  rseq [rlit "派遣者", RE.starG colonSpaceJ, RE.group (rplusG notSpace)],
  rseq [rlit "作業者", RE.starG colonSpaceJ, RE.group (rplusG notSpace)],
  rseq [rlit "Name", RE.starG colonSpaceA, RE.group engName],
  rseq [rlit "Employee", RE.starG colonSpaceA, RE.group engName],
  rseq [rlit "Worker", RE.starG colonSpaceA, RE.group engName],
  rseq [rlit "氏名", RE.starG isSpaceC, RE.cls colonSpaceJ, RE.starG isSpaceC,
        RE.group (rplusG notSpace)],
  rseq [rlit "名前", RE.starG isSpaceC, RE.cls colonSpaceJ, RE.starG isSpaceC,
        RE.group (rplusG notSpace)]
]

/-- Drop a maximal trailing run of characters satisfying p. -/
def dropTrailingWhile (p : Char → Bool) (l : List Char) : List Char :=
  (l.reverse.dropWhile p).reverse

/-- Python str.strip(). -/
def pyStrip (l : List Char) : List Char :=
  dropTrailingWhile isSpaceC (l.dropWhile isSpaceC)

/-- Python str.isdigit restricted to ASCII digits: nonempty and all digits. -/
def isDigitStr (l : List Char) : Bool := !l.isEmpty && l.all Char.isDigit

/-- Lines 331-337 applied to one name rule: search, strip, removal of the
    trailing [:\s\n\r] run, and the length/digit guard; none means the loop
    continues with the next rule. -/
def nameFromPattern (r : RE) (s : List Char) : Option (List Char) :=
  match searchAux r s with
  | none => none
  | some (caps, _) =>
    let name := dropTrailingWhile colonSpaceA (pyStrip (caps.headD []))
    if 1 < name.length ∧ isDigitStr name = false then some name else none

/-- Scan of the name rules, first surviving match wins. -/
def nameScan (s : List Char) : List RE → List Char
  | [] => "不明".toList
  | p :: ps =>
    match nameFromPattern p s with
    | some n => n
    | none => nameScan s ps

/-- Lines 311-339 of src/app.py: the single-subject name extractor; 不明 is
    the "unknown" sentinel. -/
def extract_employee_name (s : List Char) : List Char := nameScan s name_patterns

/-- Pattern families of the table extractor: 表形式 = table, リスト形式 =
    list, 縦形式 = vertical. -/
inductive PatternType where
  | table | list | vertical
deriving DecidableEq

/-- One extracted employee row (the dict of line 117). -/
structure Employee where
  name : List Char
  hours : ℚ
  pattern_type : PatternType
  pattern_index : Nat
deriving DecidableEq

/-- Class [│\|\t\n\r] of line 139. -/
def delimClass (c : Char) : Bool :=
  c == '│' || c == '|' || c == '\t' || c == '\n' || c == '\r'

/-- Class [:\s：\-\=] of lines 140-141. -/
def edgeSymClass (c : Char) : Bool :=
  c == ':' || isSpaceC c || c == '：' || c == '-' || c == '='

/-- Replacement of each maximal class run by one space, with a flag recording
    whether the previous character belonged to the run. -/
def collapseRunsAux (p : Char → Bool) : List Char → Bool → List Char
  | [], _ => []
  | c :: rest, inRun =>
    if p c then
      if inRun then collapseRunsAux p rest true
      else ' ' :: collapseRunsAux p rest true
    else c :: collapseRunsAux p rest false

/-- re.sub of a character-class run by a single space (line 139). -/
def collapseRuns (p : Char → Bool) (l : List Char) : List Char :=
  collapseRunsAux p l false

/-- Date marker class [日月年]. -/
def dateMarker (c : Char) : Bool := c == '日' || c == '月' || c == '年'

/-- Walk a (possibly empty) digit run and require a date marker right after
    it, returning the remainder after the marker. -/
def dateSkip : List Char → Option (List Char)
  | [] => none
  | c :: rest =>
    if c.isDigit then dateSkip rest
    else if dateMarker c then some rest else none

/-- Fuelled scan for removeDateTokens; a successful dateSkip always shortens
    the list, so fuel equal to the length plus one never runs out. -/
def removeDateFuel : Nat → List Char → List Char
  | 0, l => l
  | _ + 1, [] => []
  | fuel + 1, c :: rest =>
    if c.isDigit then
      match dateSkip rest with
      | some rest2 => removeDateFuel fuel rest2
      | none => c :: removeDateFuel fuel rest
    else c :: removeDateFuel fuel rest

/-- re.sub removing every \d+[日月年] match (line 142): a match at a position
    is exactly a nonempty digit run followed by a marker. -/
def removeDateTokens (l : List Char) : List Char := removeDateFuel (l.length + 1) l

/-- One of the four label words 勤務 時間 合計 実績 (line 143). -/
def labelWord (c d : Char) : Bool :=
  (c == '勤' && d == '務') || (c == '時' && d == '間') ||
  (c == '合' && d == '計') || (c == '実' && d == '績')

/-- re.sub removing the label words (line 143); all alternatives have length
    two, so scanning two characters at a time matches the regex scan. -/
def removeLabelWords : List Char → List Char
  | [] => []
  | [c] => [c]
  | c :: d :: rest =>
    if labelWord c d then removeLabelWords rest
    else c :: removeLabelWords (d :: rest)

/-- Lines 136-146 of src/app.py: employee-name cleaning.  The final
    substitution of \s+ by the empty string deletes every whitespace
    character, making the trailing strip a no-op. -/
def clean_employee_name (name : List Char) : List Char :=
  let n1 := collapseRuns delimClass name
  let n2 := n1.dropWhile edgeSymClass
  let n3 := dropTrailingWhile edgeSymClass n2
  let n4 := removeDateTokens n3
  let n5 := removeLabelWords n4
  let n6 := n5.filter notSpace
  pyStrip n6

/-- Class [あ-んア-ン一-龯\s] of line 160. -/
def jpNameChar (c : Char) : Bool :=
  ('あ' ≤ c && c ≤ 'ん') || ('ア' ≤ c && c ≤ 'ン') || ('一' ≤ c && c ≤ '龯') || isSpaceC c

/-- Class [A-Za-z\s] of line 162. -/
def latinNameChar (c : Char) : Bool := isAlphaAZ c || isSpaceC c

/-- Python re.match against a caret class-plus dollar pattern: the whole
    string lies in the class, allowing one trailing newline (the dollar also
    matches just before a final newline). -/
def reFullMatchPlus (p : Char → Bool) (l : List Char) : Bool :=
  (!l.isEmpty && l.all p) ||
  (l.getLast? == some '\n' && !l.dropLast.isEmpty && l.dropLast.all p)

/-- Stop-list of field-label words (line 156). -/
def nameStopList : List (List Char) :=
  (["項目", "氏名", "社員名", "名前", "時間", "勤務", "合計", "実績", "承認",
    "社員", "勤務日数"] : List String).map String.toList

/-- Lines 148-165 of src/app.py: employee-name validation. -/
def is_valid_employee_name (name : List Char) : Bool :=
  if name = [] ∨ name.length < 2 then false
  else if 20 < name.length then false
  else if reFullMatchPlus Char.isDigit name then false
  else if name ∈ nameStopList then false
  else if reFullMatchPlus jpNameChar name then true
  else if reFullMatchPlus latinNameChar name then true
  else false

/-- Table-family patterns 表形式 (lines 73-77). -/
def table_patterns : List RE := [
  rseq [RE.cls (fun c => c == '│'),
        RE.group (rplusG (fun c => !(c == '│' || c == '\n' || c == '\r'))),
        RE.cls (fun c => c == '│'), RE.starL (fun c => !(c == '│')),
        RE.group decNum, RE.starG hourUnit, RE.starL (fun c => !(c == '│')),
        RE.cls (fun c => c == '│')],
  rseq [RE.group (rplusG (fun c => !(c == '|' || c == '\n' || c == '\r' || c == '\t'))),
        RE.cls (fun c => c == '|' || c == '\t'), RE.starG isSpaceC, rplusG Char.isDigit,
        RE.starG (fun c => c == '日'), RE.cls (fun c => c == '|' || c == '\t'),
        RE.starG isSpaceC, RE.group decNum, RE.starG hourUnit],
  rseq [RE.group (rplusG (fun c => !(c == '\n' || c == '\r' || c == '\t'))),
        rplusG isSpaceC, RE.group decNum, rplusG hourUnit]
]

/-- List-family patterns リスト形式 (lines 80-84). -/
def list_patterns : List RE := [
  rseq [RE.group (rplusL (fun c => !(c == '\n' || c == '\r'))), rplusG isSpaceC,
        rlit "勤務時間", RE.starG colonSpaceJ, RE.group decNum, RE.starG hourUnit],
  rseq [RE.group (rplusL (fun c => !(c == '\n' || c == '\r'))), rplusG colonSpaceJ,
        RE.group decNum, rplusG hourUnit],
  rseq [RE.group (rplusL (fun c => !(c == '\n' || c == '\r'))), rplusG isSpaceC,
        RE.group decNum, rplusG hourUnit]
]

/-- Vertical-family patterns 縦形式 (lines 87-91); the dot is DOTALL. -/
def vertical_patterns : List RE := [
  rseq [rlit "氏名", RE.starG colonSpaceJ,
        RE.group (rplusG (fun c => !(c == '\n' || c == '\r'))), RE.starL (fun _ => true),
        rlit "勤務時間", RE.starG colonSpaceJ, RE.group decNum, RE.starG hourUnit],
  rseq [rlit "社員名", RE.starG colonSpaceJ,
        RE.group (rplusG (fun c => !(c == '\n' || c == '\r'))), RE.starL (fun _ => true),
        rlit "勤務時間", RE.starG colonSpaceJ, RE.group decNum, RE.starG hourUnit],
  rseq [rlit "名前", RE.starG colonSpaceJ,
        RE.group (rplusG (fun c => !(c == '\n' || c == '\r'))), RE.starL (fun _ => true),
        rlit "勤務時間", RE.starG colonSpaceJ, RE.group decNum, RE.starG hourUnit]
]

/-- The three families in processing order (lines 93-97). -/
def all_patterns : List (PatternType × List RE) :=
  [(PatternType.table, table_patterns), (PatternType.list, list_patterns),
   (PatternType.vertical, vertical_patterns)]

/-- Lines 106-125: one raw findall tuple to an optional employee record
    (strip, clean, validate the name; parse and range-check the hours). -/
def processRow (pt : PatternType) (idx : Nat) (m0 m1 : List Char) : Option Employee :=
  if is_valid_employee_name (clean_employee_name (pyStrip m0)) then
    match parseDec (pyStrip m1) with
    | some hours =>
      if 10 ≤ hours ∧ hours ≤ 500 then
        some ⟨clean_employee_name (pyStrip m0), hours, pt, idx⟩
      else none
    | none => none
  else none

/-- Records produced by one family, patterns enumerated from one as in the
    source debug labels. -/
def rowsOfPatterns (s : List Char) (pt : PatternType) (pats : List RE) : List Employee :=
  pats.enum.flatMap (fun pr =>
    (findallAux pr.2 s).filterMap (fun caps =>
      match caps with
      | [m0, m1] => processRow pt (pr.1 + 1) m0 m1
      | _ => none))

/-- Assoc lookup standing for the seen_names dict (most recent entry wins). -/
def lookupSeen (seen : List (List Char × Employee)) (n : List Char) : Option Employee :=
  (seen.find? (fun pr => pr.1 == n)).map (fun pr => pr.2)

/-- Replacement of the first record with a given name (lines 182-185). -/
def replaceFirstByName (n : List Char) (e : Employee) : List Employee → List Employee
  | [] => []
  | x :: xs => if x.name == n then e :: xs else x :: replaceFirstByName n e xs

/-- Loop body of remove_duplicate_employees (lines 172-185): seen_names and
    unique_employees evolve together. -/
def rdeAux : List Employee → List (List Char × Employee) → List Employee → List Employee
  | [], _, uniq => uniq
  | e :: rest, seen, uniq =>
    match lookupSeen seen e.name with
    | none => rdeAux rest ((e.name, e) :: seen) (uniq ++ [e])
    | some ex =>
      if e.pattern_type = PatternType.table ∧ ¬ ex.pattern_type = PatternType.table then
        rdeAux rest ((e.name, e) :: seen) (replaceFirstByName e.name e uniq)
      else rdeAux rest seen uniq

/-- Lines 167-187 of src/app.py. -/
def remove_duplicate_employees (es : List Employee) : List Employee := rdeAux es [] []

/-- Lines 65-134 of src/app.py: the table extractor over the acquired text
    (debug strings omitted). -/
def extract_multiple_employees_from_table (s : List Char) : List Employee :=
  remove_duplicate_employees
    (all_patterns.flatMap (fun pp => rowsOfPatterns s pp.1 pp.2))

/-- Document-level result: multi-employee table output, or the single-subject
    pair of name and hour selection. -/
inductive ExtractionResult where
  | multi (employees : List Employee)
  | single (employee_name : List Char) (work_hours : List ℚ)
deriving DecidableEq

/-- Lines 356-380 of src/app.py: the classifier over the acquired text (file
    decoding, timestamps and raw-text bookkeeping are external). -/
def process_text_multi_person (s : List Char) : ExtractionResult :=
  if 1 < (extract_multiple_employees_from_table s).length then
    ExtractionResult.multi (extract_multiple_employees_from_table s)
  else ExtractionResult.single (extract_employee_name s) (extract_work_hours_smart s)

/-- Specification-side choice function for the deduplicator, following the
    spec wording: for a name, the first tabular-family record when one exists,
    otherwise the first record with that name. -/
def dedupSpecChosen (es : List Employee) (n : List Char) : Option Employee :=
  (es.find? (fun e => e.name == n && decide (e.pattern_type = PatternType.table))).or
    (es.find? (fun e => e.name == n))

/-! Helper lemmas. -/

theorem round2_eq (q : ℚ) : round2 q = ((round (q * 100) : ℤ) : ℚ) / 100 := by
  have hd : ((q.den : ℚ)) ≠ 0 := by
    exact_mod_cast q.den_nz
  have hq : q * 100 + 1 / 2 =
      ((200 * q.num + (q.den : Int) : ℤ) : ℚ) / ((2 * q.den : Nat) : ℚ) := by
    have hq2 : q = (q.num : ℚ) / (q.den : ℚ) := (Rat.num_div_den q).symm
    conv_lhs => rw [hq2]
    push_cast
    field_simp
    ring
  have h3 := Rat.floor_intCast_div_natCast (200 * q.num + (q.den : Int)) (2 * q.den)
  unfold round2
  rw [Rat.mkRat_eq_div, round_eq, hq, h3]
  norm_num

theorem pairHours_eq (x y : ℚ) : pairHours x y = x + y / 60 := by
  have hdx : ((x.den : ℚ)) ≠ 0 := by exact_mod_cast x.den_nz
  have hdy : ((y.den : ℚ)) ≠ 0 := by exact_mod_cast y.den_nz
  conv_rhs => rw [← Rat.mkRat_self x, ← Rat.mkRat_self y]
  unfold pairHours
  simp only [Rat.mkRat_eq_div]
  push_cast
  field_simp
  ring

theorem round2_round2 (q : ℚ) : round2 (round2 q) = round2 q := by
  rw [round2_eq (round2 q), round2_eq q]
  have h : ((round (q * 100) : ℤ) : ℚ) / 100 * 100 = ((round (q * 100) : ℤ) : ℚ) :=
    div_mul_cancel₀ _ (by norm_num)
  rw [h, round_intCast]

theorem processPair_round2 (h v : ℚ) (he : processPair h = some v) : round2 v = v := by
  unfold processPair at he
  split at he
  · rw [Option.some.injEq] at he
    rw [← he]
    exact round2_round2 h
  · cases he

theorem processSingle_round2 (t : Tier) (h v : ℚ) (he : processSingle t h = some v) :
    round2 v = v := by
  unfold processSingle at he
  split at he
  · split at he
    · rw [Option.some.injEq] at he
      rw [← he]
      exact round2_round2 h
    · cases he
  · split at he
    · split at he
      · rw [Option.some.injEq] at he
        rw [← he]
        exact round2_round2 h
      · cases he
    · split at he
      · split at he
        · rw [Option.some.injEq] at he
          rw [← he]
          exact round2_round2 h
        · cases he
      · cases he

theorem processMatch_round2 (t : Tier) (caps : List (List Char)) (v : ℚ)
    (he : processMatch t caps = some v) : round2 v = v := by
  match caps with
  | [] => simp [processMatch] at he
  | [a] =>
    simp only [processMatch] at he
    cases hp : parseDec a with
    | none => rw [hp] at he; cases he
    | some x => rw [hp] at he; exact processSingle_round2 t x v he
  | [a, b] =>
    simp only [processMatch] at he
    cases hp : parseDec a with
    | none => rw [hp] at he; cases he
    | some x =>
      cases hq : parseDec b with
      | none => rw [hp, hq] at he; cases he
      | some y => rw [hp, hq] at he; exact processPair_round2 _ v he
  | _ :: _ :: _ :: _ => simp [processMatch] at he

theorem tierValues_round2 (t : Tier) (s : List Char) (v : ℚ) (hv : v ∈ tierValues t s) :
    round2 v = v := by
  unfold tierValues at hv
  simp only [List.mem_flatMap, List.mem_filterMap] at hv
  obtain ⟨p, _, caps, _, hm⟩ := hv
  exact processMatch_round2 t caps v hm

theorem dedupFirstAux_subset (l : List ℚ) :
    ∀ (seen : List ℚ) (x : ℚ), x ∈ dedupFirstAux l seen → x ∈ l := by
  induction l with
  | nil => intro seen x h; simp [dedupFirstAux] at h
  | cons y rest ih =>
    intro seen x h
    unfold dedupFirstAux at h
    split at h
    · exact List.mem_cons_of_mem y (ih seen x h)
    · rcases List.mem_cons.mp h with h1 | h2
      · exact h1 ▸ List.mem_cons_self y rest
      · exact List.mem_cons_of_mem y (ih (y :: seen) x h2)

theorem dedupFirstAux_nodup (l : List ℚ) :
    ∀ seen : List ℚ, (dedupFirstAux l seen).Nodup ∧ ∀ x ∈ dedupFirstAux l seen, x ∉ seen := by
  induction l with
  | nil => intro seen; simp [dedupFirstAux]
  | cons y rest ih =>
    intro seen
    unfold dedupFirstAux
    split
    · exact ⟨(ih seen).1, (ih seen).2⟩
    · constructor
      · refine List.nodup_cons.mpr ⟨?_, (ih (y :: seen)).1⟩
        intro hy
        exact ((ih (y :: seen)).2 y hy) (List.mem_cons_self y seen)
      · intro x hx
        rcases List.mem_cons.mp hx with h1 | h2
        · subst h1; assumption
        · intro hxs
          exact ((ih (y :: seen)).2 x h2) (List.mem_cons_of_mem y hxs)

theorem dedupFirst_subset (l : List ℚ) (x : ℚ) (h : x ∈ dedupFirst l) : x ∈ l :=
  dedupFirstAux_subset l [] x h

theorem dedupFirst_nodup (l : List ℚ) : (dedupFirst l).Nodup := (dedupFirstAux_nodup l []).1

theorem dedupFirst_ne_nil (l : List ℚ) (h : l ≠ []) : dedupFirst l ≠ [] := by
  match l with
  | [] => exact absurd rfl h
  | x :: rest => simp [dedupFirst, dedupFirstAux]

theorem mem_sortedDedup (l : List ℚ) (v : ℚ) : v ∈ sortedDedup l ↔ v ∈ dedupFirst l :=
  (List.perm_insertionSort (· ≤ ·) (dedupFirst l)).mem_iff

theorem sortedDedup_nodup (l : List ℚ) : (sortedDedup l).Nodup :=
  ((List.perm_insertionSort (· ≤ ·) (dedupFirst l)).nodup_iff).mpr (dedupFirst_nodup l)

theorem sortedDedup_pairwise_lt (l : List ℚ) : List.Pairwise (· < ·) (sortedDedup l) := by
  have hs : List.Sorted (· ≤ ·) (sortedDedup l) :=
    List.sorted_insertionSort (· ≤ ·) (dedupFirst l)
  have hn : List.Pairwise (fun a b : ℚ => a ≠ b) (sortedDedup l) := sortedDedup_nodup l
  exact (hs.and hn).imp (fun hab => lt_of_le_of_ne hab.1 hab.2)

theorem selGo_mem (s : List Char) (ts : List Tier) (v : ℚ) (h : v ∈ selGo s ts) :
    ∃ t ∈ ts, v ∈ tierValues t s := by
  induction ts with
  | nil => simp [selGo] at h
  | cons t rest ih =>
    unfold selGo at h
    split at h
    · obtain ⟨u, hu, hv⟩ := ih h
      exact ⟨u, List.mem_cons_of_mem t hu, hv⟩
    · split at h
      · exact ⟨t, List.mem_cons_self t rest,
          dedupFirst_subset _ v h⟩
      · rcases List.mem_append.mp h with h1 | h2
        · exact ⟨t, List.mem_cons_self t rest, dedupFirst_subset _ v h1⟩
        · obtain ⟨u, hu, hv⟩ := ih h2
          exact ⟨u, List.mem_cons_of_mem t hu, hv⟩

theorem extract_mem_sortedDedup (s : List Char) (v : ℚ)
    (h : v ∈ extract_work_hours_smart s) : v ∈ sortedDedup (selectedValues s) := by
  unfold extract_work_hours_smart at h
  split at h
  · exact List.mem_of_mem_drop h
  · exact h

theorem extract_mem_selected (s : List Char) (v : ℚ)
    (h : v ∈ extract_work_hours_smart s) : v ∈ selectedValues s :=
  dedupFirst_subset _ v ((mem_sortedDedup _ v).mp (extract_mem_sortedDedup s v h))

theorem find?_singleton (p : Employee → Bool) (e : Employee) :
    List.find? p [e] = if p e then some e else none := by
  cases h : p e
  · rw [List.find?_cons_of_neg [] (by simp [h])]
    simp
  · rw [List.find?_cons_of_pos [] h]
    simp

theorem chosen_mem (es : List Employee) (n : List Char) (x : Employee)
    (h : dedupSpecChosen es n = some x) : x ∈ es ∧ x.name = n := by
  unfold dedupSpecChosen at h
  cases ht : List.find? (fun e => e.name == n && decide (e.pattern_type = PatternType.table)) es with
  | some y =>
    rw [ht] at h
    have hy : y = x := by
      have : (some y).or (es.find? (fun e => e.name == n)) = some y := rfl
      rw [this] at h
      exact (Option.some.injEq y x).mp h
    subst hy
    have hm := List.mem_of_find?_eq_some ht
    have hp := List.find?_some ht
    simp at hp
    exact ⟨hm, hp.1⟩
  | none =>
    rw [ht, Option.none_or] at h
    have hm := List.mem_of_find?_eq_some h
    have hp := List.find?_some h
    simp at hp
    exact ⟨hm, hp⟩

theorem chosen_eq_none_iff (p : List Employee) (n : List Char) :
    dedupSpecChosen p n = none ↔ ∀ x ∈ p, ¬ x.name = n := by
  constructor
  · intro h x hx hn
    unfold dedupSpecChosen at h
    cases ht : List.find? (fun e => e.name == n && decide (e.pattern_type = PatternType.table)) p with
    | some y => rw [ht] at h; exact absurd h (by exact fun hh => Option.noConfusion hh)
    | none =>
      rw [ht, Option.none_or] at h
      have := List.find?_eq_none.mp h x hx
      simp [hn] at this
  · intro hall
    unfold dedupSpecChosen
    have h1 : List.find? (fun e => e.name == n && decide (e.pattern_type = PatternType.table)) p = none := by
      rw [List.find?_eq_none]
      intro x hx
      simp
      intro hn
      exact absurd hn (hall x hx)
    have h2 : List.find? (fun e : Employee => e.name == n) p = none := by
      rw [List.find?_eq_none]
      intro x hx
      simp
      exact hall x hx
    rw [h1, h2]
    rfl

theorem chosen_append_other (p : List Employee) (e : Employee) (n : List Char)
    (hne : ¬ n = e.name) :
    dedupSpecChosen (p ++ [e]) n = dedupSpecChosen p n := by
  unfold dedupSpecChosen
  have hb : (e.name == n) = false := beq_eq_false_iff_ne.mpr (fun h => hne h.symm)
  rw [List.find?_append, List.find?_append, find?_singleton, find?_singleton]
  simp [hb]

theorem chosen_append_self_new (p : List Employee) (e : Employee)
    (h : dedupSpecChosen p e.name = none) :
    dedupSpecChosen (p ++ [e]) e.name = some e := by
  have hall := (chosen_eq_none_iff p e.name).mp h
  have h1 : List.find? (fun x => x.name == e.name && decide (x.pattern_type = PatternType.table)) p = none := by
    rw [List.find?_eq_none]
    intro x hx
    simp
    intro hn
    exact absurd hn (hall x hx)
  have h2 : List.find? (fun x : Employee => x.name == e.name) p = none := by
    rw [List.find?_eq_none]
    intro x hx
    simp
    exact hall x hx
  unfold dedupSpecChosen
  rw [List.find?_append, List.find?_append, h1, h2, Option.none_or, Option.none_or,
      find?_singleton, find?_singleton]
  simp
  exact Decidable.em (e.pattern_type = PatternType.table)

theorem chosen_append_self_replace (p : List Employee) (e ex : Employee)
    (h : dedupSpecChosen p e.name = some ex)
    (hex : ¬ ex.pattern_type = PatternType.table)
    (he : e.pattern_type = PatternType.table) :
    dedupSpecChosen (p ++ [e]) e.name = some e := by
  have h1 : List.find? (fun x => x.name == e.name && decide (x.pattern_type = PatternType.table)) p = none := by
    cases ht : List.find? (fun x => x.name == e.name && decide (x.pattern_type = PatternType.table)) p with
    | none => rfl
    | some y =>
      unfold dedupSpecChosen at h
      rw [ht] at h
      have hy : y = ex := by
        have : (some y).or (p.find? (fun x => x.name == e.name)) = some y := rfl
        rw [this] at h
        exact (Option.some.injEq y ex).mp h
      subst hy
      have hp := List.find?_some ht
      simp at hp
      exact absurd hp.2 hex
  unfold dedupSpecChosen
  rw [List.find?_append, h1, Option.none_or, find?_singleton]
  simp [he]

theorem chosen_append_self_keep (p : List Employee) (e ex : Employee)
    (h : dedupSpecChosen p e.name = some ex)
    (hcond : ¬ (e.pattern_type = PatternType.table ∧ ¬ ex.pattern_type = PatternType.table)) :
    dedupSpecChosen (p ++ [e]) e.name = some ex := by
  unfold dedupSpecChosen at h ⊢
  rw [List.find?_append, List.find?_append]
  cases ht : List.find? (fun x => x.name == e.name && decide (x.pattern_type = PatternType.table)) p with
  | some y =>
    rw [ht] at h
    have hy : y = ex := by
      have : (some y).or (p.find? (fun x => x.name == e.name)) = some y := rfl
      rw [this] at h
      exact (Option.some.injEq y ex).mp h
    subst hy
    rfl
  | none =>
    rw [ht, Option.none_or] at h
    have hexmem := List.mem_of_find?_eq_some h
    have hextab : ¬ ex.pattern_type = PatternType.table := by
      intro htab
      have := List.find?_eq_none.mp ht ex hexmem
      have hname := List.find?_some h
      simp at hname this
      exact absurd hname (by intro hn; exact (this hn) htab)
    have hetab : ¬ e.pattern_type = PatternType.table := fun hh => hcond ⟨hh, hextab⟩
    have h2 : List.find? (fun x => x.name == e.name && decide (x.pattern_type = PatternType.table)) [e] = none := by
      rw [find?_singleton]
      simp [hetab]
    rw [h2, Option.none_or, Option.none_or, h]
    rfl

theorem replaceFirst_map_name (n : List Char) (e : Employee) (he : e.name = n) :
    ∀ l : List Employee,
      (replaceFirstByName n e l).map Employee.name = l.map Employee.name := by
  intro l
  induction l with
  | nil => rfl
  | cons y ys ih =>
    simp only [replaceFirstByName]
    split
    · rename_i hcond
      simp [he, beq_iff_eq.mp hcond]
    · simp [ih]

theorem mem_replaceFirst (n : List Char) (e : Employee) :
    ∀ l : List Employee, (l.map Employee.name).Nodup →
      ∀ x ∈ replaceFirstByName n e l, x = e ∨ (x ∈ l ∧ ¬ x.name = n) := by
  intro l
  induction l with
  | nil => intro _ x hx; simp [replaceFirstByName] at hx
  | cons y ys ih =>
    intro hnd x hx
    unfold replaceFirstByName at hx
    cases hy : (y.name == n) with
    | true =>
      rw [hy] at hx
      simp at hx
      rcases hx with h1 | h2
      · exact Or.inl h1
      · right
        refine ⟨List.mem_cons_of_mem y h2, ?_⟩
        intro hxn
        have hyn := beq_iff_eq.mp hy
        have : x.name ∈ ys.map Employee.name := List.mem_map_of_mem Employee.name h2
        rw [hxn, ← hyn] at this
        simp at hnd
        exact hnd.1 x h2 (by rw [hyn, ← hxn])
    | false =>
      rw [hy] at hx
      simp at hx
      rcases hx with h1 | h2
      · subst h1
        right
        refine ⟨List.mem_cons_self x ys, ?_⟩
        intro hxn
        rw [beq_eq_false_iff_ne] at hy
        exact hy hxn
      · have hnd2 : (ys.map Employee.name).Nodup := by
          simp at hnd
          exact hnd.2
        rcases ih hnd2 x h2 with h3 | h4
        · exact Or.inl h3
        · exact Or.inr ⟨List.mem_cons_of_mem y h4.1, h4.2⟩

theorem e_mem_replaceFirst (n : List Char) (e : Employee) :
    ∀ l : List Employee, (∃ y ∈ l, y.name = n) → e ∈ replaceFirstByName n e l := by
  intro l
  induction l with
  | nil => intro h; simp at h
  | cons y ys ih =>
    intro h
    simp only [replaceFirstByName]
    split
    · exact List.mem_cons_self e ys
    · rename_i hcond
      have hy : ¬ y.name = n := by simpa using hcond
      obtain ⟨z, hz, hzn⟩ := h
      rcases List.mem_cons.mp hz with h1 | h2
      · exact absurd (h1 ▸ hzn) hy
      · exact List.mem_cons_of_mem y (ih ⟨z, h2, hzn⟩)

theorem mem_replaceFirst_of_ne (n : List Char) (e : Employee) :
    ∀ l : List Employee, ∀ x ∈ l, ¬ x.name = n → x ∈ replaceFirstByName n e l := by
  intro l
  induction l with
  | nil => intro x hx; simp at hx
  | cons y ys ih =>
    intro x hx hxn
    simp only [replaceFirstByName]
    split
    · rename_i hcond
      rcases List.mem_cons.mp hx with h1 | h2
      · exact absurd (h1 ▸ beq_iff_eq.mp hcond) (h1 ▸ hxn)
      · exact List.mem_cons_of_mem e h2
    · rcases List.mem_cons.mp hx with h1 | h2
      · exact List.mem_cons.mpr (Or.inl h1)
      · exact List.mem_cons_of_mem y (ih x h2 hxn)

theorem lookupSeen_cons (m : List Char) (e : Employee)
    (seen : List (List Char × Employee)) (n : List Char) :
    lookupSeen ((m, e) :: seen) n = if m == n then some e else lookupSeen seen n := by
  unfold lookupSeen
  cases hm : (m == n) with
  | true =>
    rw [List.find?_cons_of_pos seen (by simpa using hm)]
    simp
  | false =>
    rw [List.find?_cons_of_neg seen (by simpa using hm)]
    simp

theorem rdeAux_spec (rest : List Employee) :
    ∀ (p : List Employee) (seen : List (List Char × Employee)) (uniq : List Employee),
      (∀ n, lookupSeen seen n = dedupSpecChosen p n) →
      ((uniq.map Employee.name).Nodup) →
      (∀ x ∈ uniq, dedupSpecChosen p x.name = some x) →
      (∀ y ∈ p, ∃ x ∈ uniq, x.name = y.name) →
      ((rdeAux rest seen uniq).map Employee.name).Nodup ∧
      (∀ x ∈ rdeAux rest seen uniq, dedupSpecChosen (p ++ rest) x.name = some x) ∧
      (∀ y ∈ p ++ rest, ∃ x ∈ rdeAux rest seen uniq, x.name = y.name) := by
  induction rest with
  | nil =>
    intro p seen uniq _ h2 h3 h4
    simp only [rdeAux, List.append_nil]
    exact ⟨h2, h3, h4⟩
  | cons e rest ih =>
    intro p seen uniq h1 h2 h3 h4
    have happ : p ++ e :: rest = (p ++ [e]) ++ rest := by simp
    rw [happ]
    cases hle : lookupSeen seen e.name with
    | none =>
      have hnone : dedupSpecChosen p e.name = none := by rw [← h1 e.name]; exact hle
      have hchosen := chosen_append_self_new p e hnone
      have hnotin : ∀ x ∈ uniq, ¬ x.name = e.name := by
        intro x hx hxe
        have hcx := h3 x hx
        rw [hxe, hnone] at hcx
        cases hcx
      have hstep : rdeAux (e :: rest) seen uniq =
          rdeAux rest ((e.name, e) :: seen) (uniq ++ [e]) := by
        simp only [rdeAux, hle]
      rw [hstep]
      refine ih (p ++ [e]) ((e.name, e) :: seen) (uniq ++ [e]) ?_ ?_ ?_ ?_
      · intro n
        rw [lookupSeen_cons]
        by_cases hbn : e.name = n
        · rw [if_pos (beq_iff_eq.mpr hbn), ← hbn]
          exact hchosen.symm
        · rw [if_neg (by simpa using hbn),
              chosen_append_other p e n (fun h => hbn h.symm)]
          exact h1 n
      · rw [List.map_append, List.nodup_append]
        refine ⟨h2, by simp, ?_⟩
        intro a ha hb
        simp at hb
        obtain ⟨x, hx, hxa⟩ := List.mem_map.mp ha
        exact hnotin x hx (by rw [hxa, hb])
      · intro x hx
        rcases List.mem_append.mp hx with hxu | hxe
        · rw [chosen_append_other p e x.name (hnotin x hxu)]
          exact h3 x hxu
        · have hxe2 : x = e := by simpa using hxe
          rw [hxe2]
          exact hchosen
      · intro y hy
        rcases List.mem_append.mp hy with hyp | hye
        · obtain ⟨x, hx, hxn⟩ := h4 y hyp
          exact ⟨x, List.mem_append.mpr (Or.inl hx), hxn⟩
        · have hye2 : y = e := by simpa using hye
          exact ⟨e, List.mem_append.mpr (Or.inr (by simp)), by rw [hye2]⟩
    | some ex =>
      have hsome : dedupSpecChosen p e.name = some ex := by rw [← h1 e.name]; exact hle
      obtain ⟨hexmem, hexname⟩ := chosen_mem p e.name ex hsome
      obtain ⟨x0, hx0, hx0n⟩ := h4 ex hexmem
      by_cases hcond : e.pattern_type = PatternType.table ∧ ¬ ex.pattern_type = PatternType.table
      · have hchosen := chosen_append_self_replace p e ex hsome hcond.2 hcond.1
        have hstep : rdeAux (e :: rest) seen uniq =
            rdeAux rest ((e.name, e) :: seen) (replaceFirstByName e.name e uniq) := by
          simp only [rdeAux, hle]
          rw [if_pos hcond]
        rw [hstep]
        refine ih (p ++ [e]) ((e.name, e) :: seen) (replaceFirstByName e.name e uniq) ?_ ?_ ?_ ?_
        · intro n
          rw [lookupSeen_cons]
          by_cases hbn : e.name = n
          · rw [if_pos (beq_iff_eq.mpr hbn), ← hbn]
            exact hchosen.symm
          · rw [if_neg (by simpa using hbn),
                chosen_append_other p e n (fun h => hbn h.symm)]
            exact h1 n
        · rw [replaceFirst_map_name e.name e rfl uniq]
          exact h2
        · intro x hx
          rcases mem_replaceFirst e.name e uniq h2 x hx with hxe | ⟨hxu, hxne⟩
          · rw [hxe]
            exact hchosen
          · rw [chosen_append_other p e x.name hxne]
            exact h3 x hxu
        · intro y hy
          rcases List.mem_append.mp hy with hyp | hye
          · obtain ⟨x1, hx1, hx1n⟩ := h4 y hyp
            by_cases hx1e : x1.name = e.name
            · refine ⟨e, e_mem_replaceFirst e.name e uniq ⟨x1, hx1, hx1e⟩, ?_⟩
              rw [← hx1e, hx1n]
            · exact ⟨x1, mem_replaceFirst_of_ne e.name e uniq x1 hx1 hx1e, hx1n⟩
          · have hye2 : y = e := by simpa using hye
            exact ⟨e, e_mem_replaceFirst e.name e uniq ⟨x0, hx0, by rw [hx0n, hexname]⟩,
                   by rw [hye2]⟩
      · have hchosen := chosen_append_self_keep p e ex hsome hcond
        have hstep : rdeAux (e :: rest) seen uniq = rdeAux rest seen uniq := by
          simp only [rdeAux, hle]
          rw [if_neg hcond]
        rw [hstep]
        refine ih (p ++ [e]) seen uniq ?_ h2 ?_ ?_
        · intro n
          by_cases hbn : n = e.name
          · rw [hbn, hle, hchosen]
          · rw [chosen_append_other p e n hbn]
            exact h1 n
        · intro x hx
          by_cases hbx : x.name = e.name
          · have hcx := h3 x hx
            rw [hbx] at hcx
            have hxex : x = ex := by
              rw [hsome] at hcx
              exact ((Option.some.injEq ex x).mp hcx).symm
            rw [hbx, hchosen, hxex]
          · rw [chosen_append_other p e x.name hbx]
            exact h3 x hx
        · intro y hy
          rcases List.mem_append.mp hy with hyp | hye
          · exact h4 y hyp
          · have hye2 : y = e := by simpa using hye
            refine ⟨x0, hx0, ?_⟩
            rw [hx0n, hexname, hye2]

theorem remove_duplicate_subset (es : List Employee) (x : Employee)
    (hx : x ∈ remove_duplicate_employees es) : x ∈ es := by
  have h := rdeAux_spec es [] [] [] (fun _ => rfl) (by simp) (by simp) (by simp)
  have h2 := h.2.1 x (by simpa [remove_duplicate_employees] using hx)
  exact (chosen_mem es x.name x (by simpa using h2)).1

theorem selGo_nil_of_empty (s : List Char) (ts : List Tier)
    (h : ∀ t ∈ ts, tierValues t s = []) : selGo s ts = [] := by
  induction ts with
  | nil => rfl
  | cons t rest ih =>
    have h0 : dedupFirst (tierValues t s) = [] := by
      rw [h t (List.mem_cons_self t rest)]
      rfl
    unfold selGo
    rw [h0, if_pos rfl]
    exact ih (fun u hu => h u (List.mem_cons_of_mem t hu))

theorem nameScan_unknown (s : List Char) (ps : List RE)
    (h : ∀ p ∈ ps, nameFromPattern p s = none) : nameScan s ps = "不明".toList := by
  induction ps with
  | nil => rfl
  | cons p rest ih =>
    simp only [nameScan, h p (List.mem_cons_self p rest)]
    exact ih (fun q hq => h q (List.mem_cons_of_mem p hq))

theorem pyStrip_sublist (l : List Char) : (pyStrip l).Sublist l := by
  unfold pyStrip dropTrailingWhile
  have h1 : (l.dropWhile isSpaceC).Sublist l := List.dropWhile_sublist _
  have h2 : ((l.dropWhile isSpaceC).reverse.dropWhile isSpaceC).Sublist
      (l.dropWhile isSpaceC).reverse := List.dropWhile_sublist _
  have h3 := h2.reverse
  rw [List.reverse_reverse] at h3
  exact h3.trans h1

theorem all_notSpace_pyStrip_filter (l : List Char) :
    (pyStrip (l.filter notSpace)).all notSpace = true := by
  rw [List.all_eq_true]
  intro c hc
  have hc2 : c ∈ l.filter notSpace := (pyStrip_sublist (l.filter notSpace)).subset hc
  exact (List.mem_filter.mp hc2).2

theorem clean_employee_name_no_space (name : List Char) :
    (clean_employee_name name).all notSpace = true := by
  unfold clean_employee_name
  exact all_notSpace_pyStrip_filter _

theorem processRow_name (pt : PatternType) (idx : Nat) (m0 m1 : List Char) (e : Employee)
    (h : processRow pt idx m0 m1 = some e) :
    e.name = clean_employee_name (pyStrip m0) := by
  unfold processRow at h
  split_ifs at h
  cases hp : parseDec (pyStrip m1) with
  | none => rw [hp] at h; cases h
  | some v =>
    rw [hp] at h
    dsimp only at h
    split_ifs at h
    rw [Option.some.injEq] at h
    rw [← h]

/-! Claim theorems. -/

/-- C1: tiers are processed in the order Critical, High, Medium, Low, Lowest
    with an early stop after Critical or High: whenever the Critical tier
    accepts at least one value on a text (and Low-tier matches are present),
    every value of the returned HourSelection is a Critical-tier value, and no
    value that is exclusively Low-tier appears. -/
theorem tier_early_stop (s : List Char)
    (hcrit : tierValues Tier.critical s ≠ [])
    (_hlow : tierValues Tier.low s ≠ []) :
    (∀ v ∈ extract_work_hours_smart s, v ∈ tierValues Tier.critical s) ∧
    (∀ v ∈ tierValues Tier.low s, v ∉ tierValues Tier.critical s →
      v ∉ extract_work_hours_smart s) := by
  have hne := dedupFirst_ne_nil _ hcrit
  have hsel : selectedValues s = dedupFirst (tierValues Tier.critical s) := by
    simp only [selectedValues, tierOrder, selGo]
    rw [if_neg hne]
    simp
  have hmain : ∀ v ∈ extract_work_hours_smart s, v ∈ tierValues Tier.critical s := by
    intro v hv
    have hv2 := extract_mem_selected s v hv
    rw [hsel] at hv2
    exact dedupFirst_subset _ v hv2
  exact ⟨hmain, fun v _ hnc hv => hnc (hmain v hv)⟩

theorem tier_early_stop_witness :
    extract_work_hours_smart ("勤務時間:176h 12h 13h".toList) = [176] ∧
    176 ∈ tierValues Tier.critical ("勤務時間:176h 12h 13h".toList) :=
  ⟨by decide,
   (tier_early_stop ("勤務時間:176h 12h 13h".toList) (by decide) (by decide)).1
     176 (by decide)⟩

/-- C2: the classifier is a pure function of the table extractor's record
    count: strictly more than one deduplicated record yields the multi result
    with exactly those records, and one or zero records discards the table
    output and yields the single-subject record. -/
theorem classifier_pure_function (s : List Char) :
    (1 < (extract_multiple_employees_from_table s).length →
      process_text_multi_person s =
        ExtractionResult.multi (extract_multiple_employees_from_table s)) ∧
    ((extract_multiple_employees_from_table s).length ≤ 1 →
      process_text_multi_person s =
        ExtractionResult.single (extract_employee_name s) (extract_work_hours_smart s)) := by
  constructor
  · intro h
    unfold process_text_multi_person
    rw [if_pos h]
  · intro h
    unfold process_text_multi_person
    rw [if_neg (by omega)]

theorem classifier_pure_function_witness :
    process_text_multi_person ("│田中太郎│176.5│\n│鈴木花子│160.0│".toList) =
      ExtractionResult.multi
        (extract_multiple_employees_from_table ("│田中太郎│176.5│\n│鈴木花子│160.0│".toList)) ∧
    (extract_multiple_employees_from_table ("│田中太郎│176.5│".toList)).length = 1 ∧
    process_text_multi_person ("│田中太郎│176.5│".toList) =
      ExtractionResult.single (extract_employee_name ("│田中太郎│176.5│".toList))
        (extract_work_hours_smart ("│田中太郎│176.5│".toList)) :=
  ⟨(classifier_pure_function _).1 (by decide), by decide,
   (classifier_pure_function _).2 (by decide)⟩

/-- C3: overflow tie-break: when more than three distinct values survive, the
    returned HourSelection is exactly the two largest of them (two values,
    both surviving, strictly above every discarded survivor); with three or
    fewer distinct values, all are kept. -/
theorem overflow_tiebreak (s : List Char) :
    (3 < (sortedDedup (selectedValues s)).length →
      (extract_work_hours_smart s).length = 2 ∧
      (∀ w ∈ extract_work_hours_smart s, w ∈ sortedDedup (selectedValues s)) ∧
      (∀ v ∈ sortedDedup (selectedValues s), v ∉ extract_work_hours_smart s →
        ∀ w ∈ extract_work_hours_smart s, v < w)) ∧
    ((sortedDedup (selectedValues s)).length ≤ 3 →
      extract_work_hours_smart s = sortedDedup (selectedValues s)) := by
  constructor
  · intro h3
    have hpw : List.Pairwise (· < ·) (sortedDedup (selectedValues s)) :=
      sortedDedup_pairwise_lt _
    refine ⟨?_, ?_, ?_⟩
    · unfold extract_work_hours_smart
      rw [if_pos h3, List.length_drop]
      omega
    · intro w hw
      exact extract_mem_sortedDedup s w hw
    · intro v hv hvn w hw
      unfold extract_work_hours_smart at hvn hw
      rw [if_pos h3] at hvn hw
      have hsplit := List.take_append_drop
        ((sortedDedup (selectedValues s)).length - 2) (sortedDedup (selectedValues s))
      have hcross := (List.pairwise_append.mp (by rw [hsplit]; exact hpw)).2.2
      have hvtake : v ∈ (sortedDedup (selectedValues s)).take
          ((sortedDedup (selectedValues s)).length - 2) := by
        have hv2 : v ∈ (sortedDedup (selectedValues s)).take
              ((sortedDedup (selectedValues s)).length - 2) ++
            (sortedDedup (selectedValues s)).drop
              ((sortedDedup (selectedValues s)).length - 2) := by
          rw [hsplit]
          exact hv
        rcases List.mem_append.mp hv2 with h | h
        · exact h
        · exact absurd h hvn
      exact hcross v hvtake w hw
  · intro h3
    unfold extract_work_hours_smart
    rw [if_neg (by omega)]

theorem overflow_tiebreak_witness :
    extract_work_hours_smart ("10h 20h 150h 160h".toList) = [150, 160] ∧
    (extract_work_hours_smart ("10h 20h 150h 160h".toList)).length = 2 ∧
    extract_work_hours_smart ("10h 20h".toList) =
      sortedDedup (selectedValues ("10h 20h".toList)) :=
  ⟨by decide, ((overflow_tiebreak ("10h 20h 150h 160h".toList)).1 (by decide)).1,
   (overflow_tiebreak ("10h 20h".toList)).2 (by decide)⟩

/-- C4: tier-specific plausibility filter for bare-number candidates: a
    Critical- or High-tier bare number is kept iff 50 ≤ v ≤ 500, a Medium- or
    Low-tier one iff 1 ≤ v ≤ 500; in particular a bare 12 under a
    Critical-tier rule is rejected and contributes nothing under that tier
    (while the same text contributes 12 under the Low tier). -/
theorem tier_range_filter :
    (∀ v : ℚ, (processSingle Tier.critical v).isSome = true ↔ (50 ≤ v ∧ v ≤ 500)) ∧
    (∀ v : ℚ, (processSingle Tier.high v).isSome = true ↔ (50 ≤ v ∧ v ≤ 500)) ∧
    (∀ v : ℚ, (processSingle Tier.medium v).isSome = true ↔ (1 ≤ v ∧ v ≤ 500)) ∧
    (∀ v : ℚ, (processSingle Tier.low v).isSome = true ↔ (1 ≤ v ∧ v ≤ 500)) ∧
    processSingle Tier.critical 12 = none ∧
    tierValues Tier.critical ("勤務時間:12時間".toList) = [] ∧
    tierValues Tier.low ("勤務時間:12時間".toList) = [12] := by
  refine ⟨?_, ?_, ?_, ?_, by decide, by decide, by decide⟩
  · intro v
    unfold processSingle
    rw [if_pos rfl]
    split_ifs with h <;> simp [h]
  · intro v
    unfold processSingle
    rw [if_neg (by decide), if_pos rfl]
    split_ifs with h <;> simp [h]
  · intro v
    unfold processSingle
    rw [if_neg (by decide), if_neg (by decide), if_pos (Or.inl rfl)]
    split_ifs with h <;> simp [h]
  · intro v
    unfold processSingle
    rw [if_neg (by decide), if_neg (by decide), if_pos (Or.inr rfl)]
    split_ifs with h <;> simp [h]

/-- C5: an hour:minute capture pair converts to hours + minutes/60 and is
    kept iff 1 ≤ value ≤ 24; only the Lowest-tier pattern has two capture
    groups, so pair candidates arise only there; the texts 8時30分 and 8:30
    each yield exactly the Lowest-tier candidate 17/2 = 8.5. -/
theorem hour_minute_conversion :
    (∀ x y : ℚ, pairHours x y = x + y / 60) ∧
    (∀ v : ℚ, (processPair v).isSome = true ↔ (1 ≤ v ∧ v ≤ 24)) ∧
    priority_patterns.all
      (fun p => decide (p.1 = Tier.lowest) || decide (numGroups p.2 = 1)) = true ∧
    tierValues Tier.lowest ("8時30分".toList) = [17 / 2] ∧
    tierValues Tier.lowest ("8:30".toList) = [17 / 2] := by
  have h85 : (mkRat 17 2 : ℚ) = 17 / 2 := by
    rw [Rat.mkRat_eq_div]
    norm_num
  refine ⟨pairHours_eq, ?_, by decide, ?_, ?_⟩
  · intro v
    unfold processPair
    split_ifs with h <;> simp [h]
  · have h : tierValues Tier.lowest ("8時30分".toList) = [mkRat 17 2] := by decide
    rw [h, h85]
  · have h : tierValues Tier.lowest ("8:30".toList) = [mkRat 17 2] := by decide
    rw [h, h85]

/-- C6: a raw (name, hours) tuple becomes an employee record iff the cleaned
    name passes validation and the hours token parses to a value v with
    10 ≤ v ≤ 500; validation itself holds iff the name is nonempty, of length
    2..20, not purely numeric, not in the stop-list, and matches the
    Japanese-script class or the Latin letters/spaces class; the names 12345,
    a one-character name and a 21-character name are rejected, and valid
    two-character names of either script are accepted. -/
theorem table_row_acceptance :
    (∀ (pt : PatternType) (idx : Nat) (m0 m1 : List Char),
      (processRow pt idx m0 m1).isSome = true ↔
        (is_valid_employee_name (clean_employee_name (pyStrip m0)) = true ∧
         ∃ v : ℚ, parseDec (pyStrip m1) = some v ∧ 10 ≤ v ∧ v ≤ 500)) ∧
    (∀ name : List Char, is_valid_employee_name name = true ↔
      (name ≠ [] ∧ 2 ≤ name.length ∧ name.length ≤ 20 ∧
       reFullMatchPlus Char.isDigit name = false ∧
       name ∉ nameStopList ∧
       (reFullMatchPlus jpNameChar name = true ∨
        reFullMatchPlus latinNameChar name = true))) ∧
    is_valid_employee_name ("12345".toList) = false ∧
    is_valid_employee_name ("田".toList) = false ∧
    is_valid_employee_name ("あいうえおかきくけこさしすせそたちつてとな".toList) = false ∧
    is_valid_employee_name ("田中".toList) = true ∧
    is_valid_employee_name ("Ab".toList) = true := by
  refine ⟨?_, ?_, by decide, by decide, by decide, by decide, by decide⟩
  · intro pt idx m0 m1
    unfold processRow
    by_cases hval : is_valid_employee_name (clean_employee_name (pyStrip m0)) = true
    · rw [if_pos hval]
      cases hp : parseDec (pyStrip m1) with
      | none => simp [hval]
      | some v =>
        dsimp only
        split_ifs with hr
        · simp [hval, hr]
        · simp [hval, hr]
    · rw [if_neg hval]
      simp [hval]
  · intro name
    unfold is_valid_employee_name
    by_cases h1 : name = [] ∨ name.length < 2
    · rw [if_pos h1]
      constructor
      · intro h
        cases h
      · rintro ⟨hne, hlen2, _⟩
        rcases h1 with h1 | h1
        · exact absurd h1 hne
        · omega
    · rw [if_neg h1]
      push_neg at h1
      by_cases h2 : 20 < name.length
      · rw [if_pos h2]
        constructor
        · intro h
          cases h
        · rintro ⟨_, _, hle, _⟩
          omega
      · rw [if_neg h2]
        by_cases h3 : reFullMatchPlus Char.isDigit name = true
        · rw [if_pos h3]
          constructor
          · intro h
            cases h
          · rintro ⟨_, _, _, hd, _⟩
            rw [h3] at hd
            cases hd
        · rw [if_neg h3]
          by_cases h4 : name ∈ nameStopList
          · rw [if_pos h4]
            constructor
            · intro h
              cases h
            · rintro ⟨_, _, _, _, hs, _⟩
              exact absurd h4 hs
          · rw [if_neg h4]
            by_cases h5 : reFullMatchPlus jpNameChar name = true
            · rw [if_pos h5]
              constructor
              · intro _
                refine ⟨h1.1, by omega, by omega, ?_, h4, Or.inl h5⟩
                cases hh : reFullMatchPlus Char.isDigit name
                · rfl
                · exact absurd hh h3
              · intro _
                rfl
            · rw [if_neg h5]
              by_cases h6 : reFullMatchPlus latinNameChar name = true
              · rw [if_pos h6]
                constructor
                · intro _
                  refine ⟨h1.1, by omega, by omega, ?_, h4, Or.inr h6⟩
                  cases hh : reFullMatchPlus Char.isDigit name
                  · rfl
                  · exact absurd hh h3
                · intro _
                  rfl
              · rw [if_neg h6]
                constructor
                · intro h
                  cases h
                · rintro ⟨_, _, _, _, _, hor⟩
                  rcases hor with h | h
                  · exact absurd h h5
                  · exact absurd h h6

/-- C7: the deduplicator keeps each cleaned name at most once; the record
    kept for a name is the one the spec describes (the first tabular-family
    record when any record with that name is tabular, otherwise the
    first-seen record), and every input name survives; a name seen once is
    kept unchanged, since the chosen record is then that single record. -/
theorem dedup_prefers_tabular (es : List Employee) :
    ((remove_duplicate_employees es).map Employee.name).Nodup ∧
    (∀ x ∈ remove_duplicate_employees es, dedupSpecChosen es x.name = some x) ∧
    (∀ y ∈ es, ∃ x ∈ remove_duplicate_employees es, x.name = y.name) := by
  have h := rdeAux_spec es [] [] [] (fun _ => rfl) (by simp) (by simp) (by simp)
  simpa [remove_duplicate_employees] using h

theorem dedup_prefers_tabular_witness :
    ((remove_duplicate_employees
        [⟨"田中".toList, 100, PatternType.list, 1⟩,
         ⟨"田中".toList, 120, PatternType.table, 1⟩,
         ⟨"鈴木".toList, 90, PatternType.list, 2⟩]).map Employee.name).Nodup ∧
    dedupSpecChosen
        [⟨"田中".toList, 100, PatternType.list, 1⟩,
         ⟨"田中".toList, 120, PatternType.table, 1⟩,
         ⟨"鈴木".toList, 90, PatternType.list, 2⟩]
        (Employee.name ⟨"田中".toList, 120, PatternType.table, 1⟩) =
      some ⟨"田中".toList, 120, PatternType.table, 1⟩ :=
  ⟨(dedup_prefers_tabular _).1, (dedup_prefers_tabular _).2.1 _ (by decide)⟩

/-- C8: the HourSelection invariant: the returned list is strictly ascending
    (hence pairwise distinct at the stored 2-decimal precision), every element
    is a fixed point of the 2-decimal rounding, and its length is at most 3. -/
theorem hour_selection_invariant (s : List Char) :
    List.Pairwise (· < ·) (extract_work_hours_smart s) ∧
    (∀ v ∈ extract_work_hours_smart s, round2 v = v) ∧
    (extract_work_hours_smart s).length ≤ 3 := by
  refine ⟨?_, ?_, ?_⟩
  · have hpw := sortedDedup_pairwise_lt (selectedValues s)
    unfold extract_work_hours_smart
    split_ifs
    · exact List.Pairwise.sublist (List.drop_sublist _ _) hpw
    · exact hpw
  · intro v hv
    have hsel := extract_mem_selected s v hv
    have hsel2 : v ∈ selGo s tierOrder := hsel
    obtain ⟨t, _, hvt⟩ := selGo_mem s tierOrder v hsel2
    exact tierValues_round2 t s v hvt
  · unfold extract_work_hours_smart
    split_ifs with h
    · rw [List.length_drop]
      omega
    · omega

theorem hour_selection_invariant_witness :
    176 ∈ extract_work_hours_smart ("勤務時間:176h".toList) ∧ round2 176 = 176 :=
  ⟨by decide,
   (hour_selection_invariant ("勤務時間:176h".toList)).2.1 176 (by decide)⟩

/-- C9: absence of matches is not an error: if no tier accepts any candidate
    the hour selector returns the empty selection, and if every name rule
    fails (no match, or the cleaned capture shorter than 2 characters or all
    digits) the name extractor returns the sentinel 不明; both functions are
    total, so no exception can arise for content-related reasons. -/
theorem no_match_defaults (s : List Char)
    (hhours : ∀ t ∈ tierOrder, tierValues t s = [])
    (hnames : ∀ p ∈ name_patterns, nameFromPattern p s = none) :
    extract_work_hours_smart s = [] ∧ extract_employee_name s = "不明".toList := by
  constructor
  · have hsel : selectedValues s = [] := selGo_nil_of_empty s tierOrder hhours
    unfold extract_work_hours_smart
    rw [hsel]
    decide
  · exact nameScan_unknown s name_patterns hnames

theorem no_match_defaults_witness :
    extract_work_hours_smart ("abc".toList) = [] ∧
    extract_employee_name ("abc".toList) = "不明".toList :=
  no_match_defaults ("abc".toList) (by decide) (by decide)

/-- C10: every name in the table extractor's output is free of whitespace:
    name cleaning deletes all whitespace outright, so a two-token Latin name
    like John Smith can only appear concatenated as JohnSmith. -/
theorem table_names_no_whitespace :
    (∀ name : List Char, (clean_employee_name name).all notSpace = true) ∧
    (∀ s : List Char, (extract_multiple_employees_from_table s).all
        (fun e => e.name.all notSpace) = true) ∧
    clean_employee_name ("John Smith".toList) = "JohnSmith".toList := by
  refine ⟨clean_employee_name_no_space, ?_, by decide⟩
  intro s
  rw [List.all_eq_true]
  intro e he
  have he2 : e ∈ all_patterns.flatMap (fun pp => rowsOfPatterns s pp.1 pp.2) :=
    remove_duplicate_subset _ e he
  simp only [List.mem_flatMap, rowsOfPatterns, List.mem_filterMap] at he2
  obtain ⟨pp, _, pr, _, caps, _, hsome⟩ := he2
  match caps with
  | [] => cases hsome
  | [_] => cases hsome
  | [m0, m1] =>
    have hname := processRow_name pp.1 (pr.1 + 1) m0 m1 e hsome
    rw [hname]
    exact clean_employee_name_no_space _
  | _ :: _ :: _ :: _ => cases hsome
